import Mathlib

/-
Verification of the `mlir::Sliceable` pseudo-container template from
mlir/lib/Bindings/Python/PybindUtils.h.

A `Sliceable` refers to a slice of some backing storage: it stores a start
index into the backing storage, the number of elements of the slice, and the
step between consecutive elements.  The derived class supplies the backing
storage through `getRawElement`; here that callback is modelled as a total
function `raw : Int → α` passed explicitly to each operation.  The C++
`intptr_t` indices are modelled as `Int` (the code asserts its arithmetic
stays in bounds, so no wrap-around semantics are involved).  An operation
that signals a Python error (throwing `pybind11::index_error` or setting
`PyErr` and returning a null object) is modelled as returning `none`.
-/

namespace PybindUtils

/-- The private state of `mlir::Sliceable`: start index into the backing
storage, slice length, and step between consecutive elements. -/
structure Sliceable where
  startIndex : Int
  length : Int
  step : Int
  deriving Repr, DecidableEq

/-- Embeds `Sliceable::wrapIndex`: transforms `index` into a legal value to
access the underlying sequence by shifting negative indices by the slice
length, returning -1 on failure. -/
def Sliceable.wrapIndex (s : Sliceable) (index : Int) : Int :=
  let index := if index < 0 then s.length + index else index
  if index < 0 ∨ s.length ≤ index then -1 else index

/-- Embeds `Sliceable::linearizeIndex`: computes the linear index into the
backing storage from a slice index. -/
def Sliceable.linearizeIndex (s : Sliceable) (index : Int) : Int :=
  index * s.step + s.startIndex

/-- Embeds `Sliceable::getElement`: wraps the index, throws
`pybind11::index_error` (modelled as `none`) when wrapping fails, and
otherwise returns the raw element at the linearized index. -/
def Sliceable.getElement {α : Type} (s : Sliceable) (raw : Int → α)
    (index : Int) : Option α :=
  let index := s.wrapIndex index
  if index < 0 then none
  else some (raw (s.linearizeIndex index))

/-- Embeds `Sliceable::getItem`: identical control flow to `getElement`,
except that failure sets `PyExc_IndexError` and returns a null object
(both modelled as `none`). -/
def Sliceable.getItem {α : Type} (s : Sliceable) (raw : Int → α)
    (index : Int) : Option α :=
  let index := s.wrapIndex index
  if index < 0 then none
  else some (raw (s.linearizeIndex index))

/-- Embeds the successful branch of `Sliceable::getItemSlice`: once
`PySlice_GetIndicesEx` (CPython, outside this repository) has normalised the
slice object over the current length into `start`, `sliceLength` and
`extraStep`, the code calls `slice(startIndex + start * step, sliceLength,
step * extraStep)`, which forwards these three values to the `Sliceable`
constructor of the derived instance. -/
def Sliceable.getItemSlice (s : Sliceable) (start sliceLength extraStep : Int) :
    Sliceable :=
  ⟨s.startIndex + start * s.step, sliceLength, s.step * extraStep⟩

/-- Embeds the element-collecting loop of `Sliceable::dunderAdd`:
`collectLoop s raw i fuel` pushes `getElement i`, `getElement (i+1)`, ...,
`fuel` elements in total, propagating a thrown `index_error` as `none`. -/
def Sliceable.collectLoop {α : Type} (s : Sliceable) (raw : Int → α) :
    Nat → Nat → Option (List α)
  | _, 0 => some []
  | i, fuel + 1 => do
    let x ← s.getElement raw (i : Int)
    let rest ← Sliceable.collectLoop s raw (i + 1) fuel
    pure (x :: rest)

/-- Embeds `Sliceable::dunderAdd`: builds a new vector containing the
elements of `a` (via `getElement 0 .. length-1`) followed by the elements of
`b`. -/
def Sliceable.dunderAdd {α : Type} (a b : Sliceable) (rawA rawB : Int → α) :
    Option (List α) := do
  let xs ← a.collectLoop rawA 0 a.length.toNat
  let ys ← b.collectLoop rawB 0 b.length.toNat
  pure (xs ++ ys)

/-- Helper: `getElement` succeeds on an already-valid slice index and returns
the raw element at the linearized position. -/
theorem Sliceable.getElement_of_valid {α : Type} (s : Sliceable)
    (raw : Int → α) (index : Int) (h0 : 0 ≤ index) (h1 : index < s.length) :
    s.getElement raw index = some (raw (s.linearizeIndex index)) := by
  simp only [Sliceable.getElement, Sliceable.wrapIndex]
  rw [if_neg (by omega), if_neg (by omega), if_neg (by omega)]

/-- C2: for a `Sliceable` with start index `b`, non-negative length `L` and
step `s`, `getElement i` (and the identical `getItem`) fails exactly when
`i < -L` or `i ≥ L`; otherwise, with `i' = i + L` for negative `i` and
`i' = i` for non-negative `i`, it returns `getRawElement (i' * s + b)`. -/
theorem getElement_index_spec {α : Type} (s : Sliceable) (raw : Int → α)
    (i : Int) (hL : 0 ≤ s.length) :
    (s.getElement raw i = none ↔ (i < -s.length ∨ s.length ≤ i)) ∧
    s.getItem raw i = s.getElement raw i ∧
    (-s.length ≤ i → i < s.length →
      s.getElement raw i =
        some (raw ((if i < 0 then i + s.length else i) * s.step +
          s.startIndex))) := by
  refine ⟨?_, rfl, ?_⟩
  · simp only [Sliceable.getElement, Sliceable.wrapIndex]
    by_cases hneg : i < 0
    · rw [if_pos hneg]
      by_cases hlow : s.length + i < 0
      · rw [if_pos (Or.inl hlow), if_pos (by omega)]
        simp only [true_iff]
        omega
      · rw [if_neg (by omega), if_neg (by omega)]
        exact iff_of_false (by simp) (by omega)
    · rw [if_neg hneg]
      by_cases hhigh : s.length ≤ i
      · rw [if_pos (Or.inr hhigh), if_pos (by omega)]
        simp only [true_iff]
        omega
      · rw [if_neg (by omega), if_neg (by omega)]
        exact iff_of_false (by simp) (by omega)
  · intro hlow hhigh
    simp only [Sliceable.getElement, Sliceable.wrapIndex,
      Sliceable.linearizeIndex]
    by_cases hneg : i < 0
    · rw [if_pos hneg, if_neg (by omega), if_neg (by omega), if_pos hneg,
        Int.add_comm s.length i]
    · rw [if_neg hneg, if_neg (by omega), if_neg (by omega), if_neg hneg]

/-- Witness for C2 at the concrete slice (start 10, length 3, step 2) and
index -1: the wrapped index is 2, so the element at backing position
2 * 2 + 10 = 14 is returned. -/
theorem getElement_index_spec_witness :
    0 ≤ (Sliceable.mk 10 3 2).length ∧
    (Sliceable.mk 10 3 2).getElement (fun x : Int => x) (-1) = some 14 := by
  refine ⟨by decide, ?_⟩
  have h := (getElement_index_spec (Sliceable.mk 10 3 2) (fun x : Int => x)
    (-1) (by decide)).2.2 (by decide) (by decide)
  simpa using h

/-- C3: slicing composes linearly.  For a `Sliceable` with start `b`, length
`L`, step `s`, and slice parameters normalised (by `PySlice_GetIndicesEx`
over `L`) to `start`, `extraStep`, `sliceLength`, the sub-container produced
by `getItemSlice` has start `b + start * s`, length `sliceLength` and step
`s * extraStep`, and for `0 ≤ i < sliceLength` its element `i` linearizes to
the same backing position `(start + i * extraStep) * s + b` as element
`start + i * extraStep` of the original slice. -/
theorem getItemSlice_compose (s : Sliceable)
    (start extraStep sliceLength i : Int)
    (h0 : 0 ≤ i) (h1 : i < sliceLength) :
    (s.getItemSlice start sliceLength extraStep).startIndex =
      s.startIndex + start * s.step ∧
    (s.getItemSlice start sliceLength extraStep).length = sliceLength ∧
    (s.getItemSlice start sliceLength extraStep).step = s.step * extraStep ∧
    (s.getItemSlice start sliceLength extraStep).linearizeIndex i =
      (start + i * extraStep) * s.step + s.startIndex ∧
    (s.getItemSlice start sliceLength extraStep).linearizeIndex i =
      s.linearizeIndex (start + i * extraStep) := by
  refine ⟨rfl, rfl, rfl, ?_, ?_⟩ <;>
    simp only [Sliceable.getItemSlice, Sliceable.linearizeIndex] <;> ring

/-- Witness for C3 at the slice (start 1, length 5, step 2) restricted with
normalised parameters start 1, extraStep 2, sliceLength 2, at sub-index 1:
the sub-slice is (start 3, length 2, step 4) and both sides linearize to
backing position 7. -/
theorem getItemSlice_compose_witness :
    (0 : Int) ≤ 1 ∧ (1 : Int) < 2 ∧
    ((Sliceable.mk 1 5 2).getItemSlice 1 2 2).linearizeIndex 1 =
      (Sliceable.mk 1 5 2).linearizeIndex (1 + 1 * 2) := by
  refine ⟨by decide, by decide, ?_⟩
  exact (getItemSlice_compose (Sliceable.mk 1 5 2) 1 2 2 1 (by decide)
    (by decide)).2.2.2.2

/-- Helper: when all `fuel` indices starting at `i` are within the slice
length, `collectLoop` succeeds and returns the raw elements at the
linearized positions, in order. -/
theorem Sliceable.collectLoop_eq {α : Type} (s : Sliceable) (raw : Int → α) :
    ∀ (fuel i : Nat), (i : Int) + fuel ≤ s.length →
      s.collectLoop raw i fuel =
        some ((List.range fuel).map fun k : Nat =>
          raw (s.linearizeIndex (i + k : Nat)))
  | 0, i, _ => by simp [Sliceable.collectLoop]
  | fuel + 1, i, h => by
    have hget : s.getElement raw (i : Int) =
        some (raw (s.linearizeIndex (i : Int))) :=
      s.getElement_of_valid raw (i : Int) (by omega) (by omega)
    have hrec := s.collectLoop_eq raw fuel (i + 1) (by push_cast at h ⊢; omega)
    simp only [Sliceable.collectLoop, hget, hrec, Option.bind_eq_bind,
      Option.some_bind, Option.pure_def, Option.some.injEq]
    rw [List.range_succ_eq_map, List.map_cons, List.map_map]
    simp only [List.cons.injEq]
    refine ⟨by simp, ?_⟩
    apply List.map_congr_left
    intro k _
    simp only [Function.comp_apply]
    congr 2
    omega

/-- C4: `dunderAdd` (the Python `__add__` operator) applied to slices `a` of
length `m` and `b` of length `n` returns a vector of exactly `m + n`
elements: element `i` is `a.getElement i` for `0 ≤ i < m` and element
`m + j` is `b.getElement j` for `0 ≤ j < n`, the in-order concatenation of
the two slices. -/
theorem dunderAdd_concat {α : Type} (a b : Sliceable) (rawA rawB : Int → α)
    (hm : 0 ≤ a.length) (hn : 0 ≤ b.length) :
    ∃ l : List α,
      a.dunderAdd b rawA rawB = some l ∧
      l.length = (a.length + b.length).toNat ∧
      (∀ i : Nat, (i : Int) < a.length →
        l[i]? = a.getElement rawA (i : Int)) ∧
      (∀ j : Nat, (j : Int) < b.length →
        l[a.length.toNat + j]? = b.getElement rawB (j : Int)) := by
  have hxs := a.collectLoop_eq rawA a.length.toNat 0 (by omega)
  have hys := b.collectLoop_eq rawB b.length.toNat 0 (by omega)
  refine ⟨((List.range a.length.toNat).map fun k : Nat =>
        rawA (a.linearizeIndex (0 + k : Nat))) ++
      ((List.range b.length.toNat).map fun k : Nat =>
        rawB (b.linearizeIndex (0 + k : Nat))), ?_, ?_, ?_, ?_⟩
  · simp only [Sliceable.dunderAdd, hxs, hys, Option.bind_eq_bind,
      Option.some_bind, Option.pure_def]
  · simp only [List.length_append, List.length_map, List.length_range]
    omega
  · intro i hi
    have hilt : i < a.length.toNat := by omega
    rw [List.getElem?_append_left (by simpa using hilt)]
    rw [a.getElement_of_valid rawA (i : Int) (by omega) hi]
    simp [List.getElem?_map, List.getElem?_range hilt]
  · intro j hj
    have hjlt : j < b.length.toNat := by omega
    rw [List.getElem?_append_right (by simp)]
    rw [b.getElement_of_valid rawB (j : Int) (by omega) hj]
    simp [List.getElem?_map, List.getElem?_range, hjlt]

/-- Witness for C4 at the slices (start 0, length 2, step 1) and (start 5,
length 1, step 2) over the identity backing: the concatenation has length 3
and its entries match the two slices' elements. -/
theorem dunderAdd_concat_witness :
    0 ≤ (Sliceable.mk 0 2 1).length ∧ 0 ≤ (Sliceable.mk 5 1 2).length ∧
    ∃ l : List Int,
      (Sliceable.mk 0 2 1).dunderAdd (Sliceable.mk 5 1 2)
        (fun x : Int => x) (fun x : Int => x) = some l ∧
      l.length = ((Sliceable.mk 0 2 1).length +
        (Sliceable.mk 5 1 2).length).toNat ∧
      (∀ i : Nat, (i : Int) < (Sliceable.mk 0 2 1).length →
        l[i]? = (Sliceable.mk 0 2 1).getElement (fun x : Int => x) (i : Int)) ∧
      (∀ j : Nat, (j : Int) < (Sliceable.mk 5 1 2).length →
        l[(Sliceable.mk 0 2 1).length.toNat + j]? =
          (Sliceable.mk 5 1 2).getElement (fun x : Int => x) (j : Int)) := by
  refine ⟨by decide, by decide, ?_⟩
  exact dunderAdd_concat (Sliceable.mk 0 2 1) (Sliceable.mk 5 1 2)
    (fun x : Int => x) (fun x : Int => x) (by decide) (by decide)

end PybindUtils
